import Mathlib

/-!
Verification of the insight-computation layer of the MumzworldDashboard
repository, a shallow embedding of src/utils/data_processor.py and
src/utils/insight_generator.py.

Modelling conventions:
* Floating-point numbers are modelled by exact rationals.
* A dataframe cell is an optional value (none models NaN / missing);
  a cell value is either numeric or text.
* NaN propagation in comparisons is modelled explicitly: where the source
  divides by zero (zero standard deviation, empty quantile, empty table),
  the embedding guards the comparison so that it is false, matching the
  IEEE semantics that every comparison with NaN is false, or returns an
  explicit none.
* A z-score test z > 3 with z = d / sqrt(v) is represented without square
  roots by the equivalent comparison d ^ 2 * (n - 1) > 9 * ssq on squares,
  exact for the real-valued idealization.  Pearson correlations are
  represented by the pair (num, densq) with r = num / sqrt densq, and all
  comparisons the source performs on r are expressed exactly in terms of
  this pair.
-/

namespace MumzDash

/-- A dataframe cell: none models a missing value (NaN); a present value is
either numeric (rational) or textual. -/
abbrev Cell := Option (ℚ ⊕ String)

/-- A named dataframe column with its dtype tag and its cells in row order. -/
structure Column where
  name : String
  isNumeric : Bool
  cells : List Cell
deriving DecidableEq, Repr

/-- A dataframe: a row count and the columns in order.  Well-formed datasets
have every column with exactly nrows cells (stated as a hypothesis where a
claim needs it). -/
structure Dataset where
  nrows : ℕ
  cols : List Column
deriving DecidableEq, Repr

/-- Well-formedness: every column has exactly nrows cells. -/
def Dataset.WF (ds : Dataset) : Prop :=
  ∀ c ∈ ds.cols, c.cells.length = ds.nrows

/-- Numeric value of a cell, none when missing or textual. -/
def cellVal (c : Cell) : Option ℚ :=
  c.bind Sum.getLeft?

/-- Series.dropna on a numeric column, keeping the original row positions
(the pandas index labels of the surviving entries). -/
def dropnaIdx (cells : List Cell) : List (ℕ × ℚ) :=
  cells.enum.filterMap (fun p => (cellVal p.2).map (fun v => (p.1, v)))

/-- The non-null numeric values of a column in row order. -/
def nonNullVals (cells : List Cell) : List ℚ :=
  cells.filterMap cellVal

/-- Column lookup by name, modelling the indexing self.data[column]; none
models the KeyError raised by pandas for a missing label. -/
def findCol (ds : Dataset) (name : String) : Option Column :=
  ds.cols.find? (fun c => c.name = name)

/-- The numeric columns in dataset order, modelling
select_dtypes(include=[np.number]). -/
def numericCols (ds : Dataset) : List Column :=
  ds.cols.filter (fun c => c.isNumeric)

/-- Ascending sort of rational values. -/
def sortQ (l : List ℚ) : List ℚ :=
  l.insertionSort (· ≤ ·)

/-- The lower interpolation index of the quantile at level q of n sorted
values: the floor of the fractional position q * (n - 1). -/
def qIdx (n : ℕ) (q : ℚ) : ℕ :=
  (⌊q * ((n : ℚ) - 1)⌋).toNat

/-- Linear-interpolated quantile of a sorted list, the method used by
Series.quantile: position h = q * (n - 1), value interpolated between the
floor index and the following entry.  Only meaningful for nonempty input;
the source produces NaN for an empty series. -/
def quantile (s : List ℚ) (q : ℚ) : ℚ :=
  let lo := qIdx s.length q
  let hi := min (lo + 1) (s.length - 1)
  s.getD lo 0 +
    (q * ((s.length : ℚ) - 1) - (lo : ℚ)) * (s.getD hi 0 - s.getD lo 0)

/-- Lower IQR fence Q1 - 1.5 * IQR of a column given its sorted non-null
values. -/
def iqrLower (s : List ℚ) : ℚ :=
  quantile s (1/4) - 3/2 * (quantile s (3/4) - quantile s (1/4))

/-- Upper IQR fence Q3 + 1.5 * IQR. -/
def iqrUpper (s : List ℚ) : ℚ :=
  quantile s (3/4) + 3/2 * (quantile s (3/4) - quantile s (1/4))

/-- The flag test of the iqr branch: strictly outside the fences. -/
def iqrPred (s : List ℚ) (p : ℕ × ℚ) : Bool :=
  decide (p.2 < iqrLower s) || decide (iqrUpper s < p.2)

/-- The column mean col_data.mean() over the indexed non-null entries. -/
def zMean (cd : List (ℕ × ℚ)) : ℚ :=
  (cd.map Prod.snd).sum / (cd.length : ℚ)

/-- The sum of squared deviations from the mean; the sample standard
deviation col_data.std() is sqrt (zSsq / (n - 1)). -/
def zSsq (cd : List (ℕ × ℚ)) : ℚ :=
  ((cd.map Prod.snd).map (fun x => (x - zMean cd) ^ 2)).sum

/-- The flag test of the z-score branch, |x - mean| / std > 3 with std the
sample standard deviation (ddof = 1), expressed on squares.  The guards
2 <= n and zSsq /= 0 model the NaN of a zero or undefined standard
deviation, for which every comparison of the source is false. -/
def zPred (cd : List (ℕ × ℚ)) (p : ℕ × ℚ) : Bool :=
  decide (2 ≤ cd.length) && decide (zSsq cd ≠ 0) &&
    decide (9 * zSsq cd < (p.2 - zMean cd) ^ 2 * ((cd.length : ℚ) - 1))

/-- DataProcessor.detect_outliers on a column that is present in the
dataframe: non-numeric dtype gives an empty list; the iqr method flags the
non-null values strictly outside the IQR fences; any other method string
takes the z-score branch. -/
def detectOutliersVals (c : Column) (method : String) : List ℕ :=
  if c.isNumeric = false then []
  else
    let cd := dropnaIdx c.cells
    if method = "iqr" then
      (cd.filter (iqrPred (sortQ (cd.map Prod.snd)))).map Prod.fst
    else
      (cd.filter (zPred cd)).map Prod.fst

/-- DataProcessor.detect_outliers: the indexing self.data[column] raises a
KeyError when the label is absent, modelled by the error constructor. -/
def detect_outliers (ds : Dataset) (column : String) (method : String) :
    Except String (List ℕ) :=
  match findCol ds column with
  | none => Except.error "KeyError"
  | some c => Except.ok (detectOutliersVals c method)

/-- Exact representation of the Pearson correlation of two columns as
computed by DataFrame.corr with pairwise-complete observations: the pair
(sxy, sxx * syy) of centered sums represents r = sxy / sqrt (sxx * syy).
A zero second component represents the NaN the source produces for
degenerate pairs. -/
def pearsonRep (x y : List Cell) : ℚ × ℚ :=
  let pairs := (x.zip y).filterMap
    (fun p => (cellVal p.1).bind (fun a => (cellVal p.2).map (fun b => (a, b))))
  let n := pairs.length
  let mx := (pairs.map Prod.fst).sum / (n : ℚ)
  let my := (pairs.map Prod.snd).sum / (n : ℚ)
  let sxy := (pairs.map (fun p => (p.1 - mx) * (p.2 - my))).sum
  let sxx := (pairs.map (fun p => (p.1 - mx) ^ 2)).sum
  let syy := (pairs.map (fun p => (p.2 - my) ^ 2)).sum
  (sxy, sxx * syy)

/-- DataProcessor.get_correlation_matrix: none when the dataset has fewer
than two numeric columns; otherwise the matrix, represented by the list of
numeric columns, the entry at (i, j) being pearsonRep of columns i and j. -/
def get_correlation_matrix (ds : Dataset) : Option (List Column) :=
  let nc := numericCols ds
  if nc.length < 2 then none else some nc

/-- One reported strong correlation.  The coefficient is carried in the
exact representation (corrNum, corrDenSq) with r = corrNum / sqrt corrDenSq. -/
structure CorrEntry where
  var1 : String
  var2 : String
  corrNum : ℚ
  corrDenSq : ℚ
  strength : String
deriving DecidableEq, Repr

/-- The upper-triangle index pairs (i, j), i < j < k, in the traversal
order of the double loop in find_strong_correlations. -/
def indexPairs (k : ℕ) : List (ℕ × ℕ) :=
  (List.range k).flatMap
    (fun i => ((List.range k).filter (fun j => decide (i < j))).map (fun j => (i, j)))

/-- The absolute correlation of an entry as an exact rational: with
r = num / sqrt densq and densq > 0 the square of |r| is num ^ 2 / densq. -/
def corrKey (e : CorrEntry) : ℚ :=
  e.corrNum ^ 2 / e.corrDenSq

/-- Sort relation of the report: descending absolute correlation.  On the
emitted entries, whose corrDenSq is positive, corrKey compares exactly as
the absolute correlation does. -/
def corrGE (e1 e2 : CorrEntry) : Prop :=
  corrKey e2 ≤ corrKey e1

instance : DecidableRel corrGE :=
  fun e1 e2 => (inferInstance : Decidable (corrKey e2 ≤ corrKey e1))

instance : IsTotal CorrEntry corrGE :=
  ⟨fun e1 e2 => le_total (corrKey e2) (corrKey e1)⟩

instance : IsTrans CorrEntry corrGE :=
  ⟨fun _ _ _ h1 h2 => le_trans h2 h1⟩

/-- Default column used only to give list indexing a total type. -/
def dfltCol : Column := ⟨"", true, []⟩

/-- The entry the inner loop body of find_strong_correlations builds for
the index pair (i, j) of the matrix columns: some entry when
|r| >= threshold, none otherwise.  The comparison abs(r) >= threshold with
r = num / sqrt densq is expressed exactly on squares, with the positivity
guard modelling that every comparison against the NaN of a degenerate pair
is false. -/
def strongEntry (nc : List Column) (thr : ℚ) (p : ℕ × ℕ) : Option CorrEntry :=
  let e := pearsonRep (nc.getD p.1 dfltCol).cells (nc.getD p.2 dfltCol).cells
  if 0 < e.2 ∧ thr ^ 2 * e.2 ≤ e.1 ^ 2 then
    some ⟨(nc.getD p.1 dfltCol).name, (nc.getD p.2 dfltCol).name, e.1, e.2,
      if 0 < e.1 then "Strong positive" else "Strong negative"⟩
  else none

/-- InsightGenerator.find_strong_correlations: empty when the matrix is
none; otherwise the entries of the upper triangle with |r| >= threshold,
sorted by descending |r| and truncated to the first five. -/
def find_strong_correlations (ds : Dataset) (thr : ℚ) : List CorrEntry :=
  match get_correlation_matrix ds with
  | none => []
  | some nc =>
    (((indexPairs nc.length).filterMap (strongEntry nc thr)).insertionSort corrGE).take 5

/-- Number of missing cells of the whole table,
data.isnull().sum().sum(). -/
def missingCount (ds : Dataset) : ℕ :=
  (ds.cols.map (fun c => c.cells.countP (fun x => decide (x = none)))).sum

/-- Completeness percentage (total - missing) / total * 100.  For an empty
table the source divides zero by zero, producing NaN, modelled by none. -/
def completeness (ds : Dataset) : Option ℚ :=
  let total := ds.nrows * ds.cols.length
  if total = 0 then none
  else some ((((total : ℚ) - (missingCount ds : ℚ)) / (total : ℚ)) * 100)

/-- The rows of the table, each a list of cells in column order. -/
def rowsOf (ds : Dataset) : List (List Cell) :=
  (List.range ds.nrows).map (fun i => ds.cols.map (fun c => c.cells.getD i none))

/-- Count of rows equal to an earlier row, data.duplicated().sum() with the
default keep=first. -/
def dupAux (seen : List (List Cell)) : List (List Cell) → ℕ
  | [] => 0
  | r :: rs => (if seen.contains r then 1 else 0) + dupAux (r :: seen) rs

/-- Number of duplicate rows of the dataset. -/
def duplicatedCount (ds : Dataset) : ℕ :=
  dupAux [] (rowsOf ds)

/-- The per-column trigger of the outlier recommendation:
len(outliers) > len(data) * 0.05 with the default iqr method. -/
def outlierHeavy (ds : Dataset) (c : Column) : Bool :=
  decide ((ds.nrows : ℚ) * (5 / 100) < ((detectOutliersVals c "iqr").length : ℚ))

/-- The missing-values advice, emitted when completeness < 95; the NaN of
an empty table (none) compares false and emits nothing. -/
def complRecs (o : Option ℚ) : List String :=
  match o with
  | none => []
  | some cq => if cq < 95 then ["Consider handling missing values"] else []

/-- The duplicate-removal advice, emitted when duplicates > 0. -/
def dupRecs (d : ℕ) : List String :=
  if 0 < d then ["Remove " ++ toString d ++ " duplicate rows"] else []

/-- The recommendation list of get_data_quality_summary, in the append
order of the source: the missing-values advice, the duplicate-removal
advice, then one outlier advice per numeric column whose iqr outlier count
exceeds five percent of the row count. -/
def qualityRecommendations (ds : Dataset) : List String :=
  complRecs (completeness ds) ++
  dupRecs (duplicatedCount ds) ++
  ((numericCols ds).filter (outlierHeavy ds)).map
    (fun c => "Investigate outliers in " ++ c.name)

/-- The result record of DataProcessor.get_data_quality_summary. -/
structure QualitySummary where
  completeness : Option ℚ
  duplicates : ℕ
  recommendations : List String
deriving DecidableEq, Repr

/-- DataProcessor.get_data_quality_summary. -/
def get_data_quality_summary (ds : Dataset) : QualitySummary :=
  ⟨completeness ds, duplicatedCount ds, qualityRecommendations ds⟩

/-- The result record of DataProcessor.analyze_trends.  The source also
interpolates the numeric slope into the description text; the description
here keeps only the branch label. -/
structure TrendResult where
  column : String
  slope : ℚ
  description : String
deriving DecidableEq, Repr

/-- Sum of the index positions 0 .. n-1 as rationals. -/
def sumX (n : ℕ) : ℚ :=
  ∑ i ∈ Finset.range n, (i : ℚ)

/-- Sum of the squared index positions. -/
def sumXX (n : ℕ) : ℚ :=
  ∑ i ∈ Finset.range n, (i : ℚ) ^ 2

/-- Sum of the values of a column, read positionally. -/
def sumY (ys : List ℚ) : ℚ :=
  ∑ i ∈ Finset.range ys.length, ys.getD i 0

/-- Sum of position times value. -/
def sumXY (ys : List ℚ) : ℚ :=
  ∑ i ∈ Finset.range ys.length, (i : ℚ) * ys.getD i 0

/-- The degree-one least-squares slope np.polyfit(x, y, 1) computes over
the positions 0 .. n-1, in closed form. -/
def olsSlope (ys : List ℚ) : ℚ :=
  let n : ℚ := (ys.length : ℚ)
  (n * sumXY ys - sumX ys.length * sumY ys) / (n * sumXX ys.length - sumX ys.length ^ 2)

/-- The matching least-squares intercept. -/
def olsIntercept (ys : List ℚ) : ℚ :=
  (sumY ys - olsSlope ys * sumX ys.length) / (ys.length : ℚ)

/-- Sum of squared errors of the affine fit y = a * x + b on the column
values at positions 0 .. n-1. -/
def sse (ys : List ℚ) (a b : ℚ) : ℚ :=
  ∑ i ∈ Finset.range ys.length, (ys.getD i 0 - (a * (i : ℚ) + b)) ^ 2

/-- The branch labels of the trend description. -/
def trendDesc (slope : ℚ) : String :=
  if 0 < slope then "Increasing trend"
  else if slope < 0 then "Decreasing trend"
  else "No clear trend"

/-- DataProcessor.analyze_trends on a column that is present: none for a
non-numeric column or fewer than three non-null values, otherwise the
least-squares slope with its classification. -/
def analyzeTrendsCol (c : Column) (colName : String) : Option TrendResult :=
  if c.isNumeric = false then none
  else
    let ys := nonNullVals c.cells
    if ys.length < 3 then none
    else some ⟨colName, olsSlope ys, trendDesc (olsSlope ys)⟩

/-- DataProcessor.analyze_trends; a missing label raises a KeyError. -/
def analyze_trends (ds : Dataset) (column : String) :
    Except String (Option TrendResult) :=
  match findCol ds column with
  | none => Except.error "KeyError"
  | some c => Except.ok (analyzeTrendsCol c column)

/-- InsightGenerator.analyze_all_trends: the trends of the numeric columns
whose slope is material, abs(slope) > 0.001. -/
def analyze_all_trends (ds : Dataset) : List TrendResult :=
  (numericCols ds).filterMap (fun c =>
    match analyzeTrendsCol c c.name with
    | some t => if 1 / 1000 < |t.slope| then some t else none
    | none => none)

/-- Distinct values of a list, keeping the first occurrence of each, the
encounter order of Series.unique. -/
def firstUniques {α : Type} [DecidableEq α] : List α → List α
  | [] => []
  | a :: as => a :: firstUniques (as.filter (fun b => decide (b ≠ a)))
termination_by l => l.length
decreasing_by
  exact Nat.lt_succ_of_le (List.length_filter_le _ _)

/-- Series.nunique: number of distinct non-null values. -/
def uniqueCount (c : Column) : ℕ :=
  (firstUniques (c.cells.filterMap id)).length

/-- One row of DataProcessor.get_column_info.  The dtype is rendered from
the dtype tag; the null percentage is kept as the rational value the
source formats into text. -/
structure ColumnProfile where
  column : String
  dtype : String
  nonNullCount : ℕ
  nullCount : ℕ
  nullPct : ℚ
  uniqueValues : ℕ
  sampleValues : List (ℚ ⊕ String)
deriving DecidableEq, Repr

/-- DataProcessor.get_column_info. -/
def get_column_info (ds : Dataset) : List ColumnProfile :=
  ds.cols.map (fun c =>
    ⟨c.name,
     if c.isNumeric then "float64" else "object",
     c.cells.countP (fun x => decide (x ≠ none)),
     c.cells.countP (fun x => decide (x = none)),
     ((c.cells.countP (fun x => decide (x = none)) : ℚ) / (c.cells.length : ℚ)) * 100,
     uniqueCount c,
     (firstUniques (c.cells.filterMap id)).take 3⟩)

/-- The facts InsightGenerator.generate_key_findings can emit; the source
renders each as formatted text, kept here structurally. -/
inductive KeyFinding
  | datasetSize (records features : ℕ)
  | highMissing (pct : ℚ)
  | lowMissing (pct : ℚ)
  | noMissing
  | dataTypes (numeric categorical : ℕ)
  | duplicatesFound (count : ℕ) (pct : ℚ)
  | uniqueIdentifier (col : String)
  | lowVariability (col : String)
deriving DecidableEq, Repr

/-- Missing-value percentage over all cells; total division models the NaN
of an empty table, which lands in the no-missing branch exactly as the NaN
comparisons of the source do. -/
def missingPct (ds : Dataset) : ℚ :=
  ((missingCount ds : ℚ) / ((ds.nrows * ds.cols.length : ℕ) : ℚ)) * 100

/-- InsightGenerator.generate_key_findings, truncated to five findings.
For a dataset with zero rows the per-column unique ratio divides by zero;
the source raises there, the model takes the quotient as zero, in which
case no per-column finding fires. -/
def generate_key_findings (ds : Dataset) : List KeyFinding :=
  ([KeyFinding.datasetSize ds.nrows ds.cols.length] ++
   [if 10 < missingPct ds then KeyFinding.highMissing (missingPct ds)
    else if 0 < missingPct ds then KeyFinding.lowMissing (missingPct ds)
    else KeyFinding.noMissing] ++
   [KeyFinding.dataTypes (numericCols ds).length
      (ds.cols.filter (fun c => c.isNumeric = false)).length] ++
   (if 0 < duplicatedCount ds then
     [KeyFinding.duplicatesFound (duplicatedCount ds)
       ((duplicatedCount ds : ℚ) / (ds.nrows : ℚ) * 100)]
    else []) ++
   (ds.cols.filterMap (fun c =>
     let ratio : ℚ := (uniqueCount c : ℚ) / (ds.nrows : ℚ)
     if 95 / 100 < ratio ∧ c.isNumeric = false then
       some (KeyFinding.uniqueIdentifier c.name)
     else if ratio < 5 / 100 ∧ 100 < ds.nrows then
       some (KeyFinding.lowVariability c.name)
     else none))).take 5

/-- One entry of InsightGenerator.detect_all_outliers. -/
structure OutlierReport where
  column : String
  count : ℕ
  percentage : ℚ
deriving DecidableEq, Repr

/-- InsightGenerator.detect_all_outliers: iqr outliers of every numeric
column, reported when at least one value is flagged. -/
def detect_all_outliers (ds : Dataset) : List OutlierReport :=
  (numericCols ds).filterMap (fun c =>
    let k := (detectOutliersVals c "iqr").length
    if k = 0 then none
    else some ⟨c.name, k, ((k : ℚ) / (ds.nrows : ℚ)) * 100⟩)

/-- One entry of InsightGenerator.analyze_distributions.  The spread
statistics are carried exactly: m2, m3, m4 are the sums of the centered
second, third and fourth powers, from which the source derives std, skew
and kurtosis; the two interpretation labels are computed by comparisons
expressed exactly on these sums. -/
structure DistInfo where
  column : String
  mean : ℚ
  median : ℚ
  m2 : ℚ
  m3 : ℚ
  m4 : ℚ
  skewInterpretation : String
  kurtInterpretation : String
deriving DecidableEq, Repr

/-- The square of the bias-corrected skewness Series.skew computes,
n ^ 2 * (n - 1) * m3 ^ 2 / ((n - 2) ^ 2 * m2 ^ 3); its sign is the sign of
m3.  Defined (non-NaN) only when n >= 3 and m2 is nonzero. -/
def skewSq (n : ℕ) (m2 m3 : ℚ) : ℚ :=
  ((n : ℚ) ^ 2 * ((n : ℚ) - 1) * m3 ^ 2) / (((n : ℚ) - 2) ^ 2 * m2 ^ 3)

/-- The bias-corrected excess kurtosis Series.kurtosis computes, rational
in the centered sums.  Defined (non-NaN) only when n >= 4 and m2 is
nonzero. -/
def kurtVal (n : ℕ) (m2 m4 : ℚ) : ℚ :=
  (((n : ℚ) - 1) / (((n : ℚ) - 2) * ((n : ℚ) - 3))) *
    (((n : ℚ) + 1) * ((n : ℚ) * m4 / m2 ^ 2 - 3) + 6)

/-- InsightGenerator.analyze_distributions on one numeric column with at
least one non-null value.  Branches on a NaN statistic (too few values or
zero variance) fall through to the final else exactly as the false NaN
comparisons of the source do. -/
def distInfoOf (name : String) (vals : List ℚ) : DistInfo :=
  let n := vals.length
  let mean := vals.sum / (n : ℚ)
  let m2 := (vals.map (fun x => (x - mean) ^ 2)).sum
  let m3 := (vals.map (fun x => (x - mean) ^ 3)).sum
  let m4 := (vals.map (fun x => (x - mean) ^ 4)).sum
  let skDef := 3 ≤ n ∧ m2 ≠ 0
  let kuDef := 4 ≤ n ∧ m2 ≠ 0
  ⟨name, mean, quantile (sortQ vals) (1/2), m2, m3, m4,
   if skDef ∧ skewSq n m2 m3 < 1/4 then "Approximately symmetric"
   else if skDef ∧ 0 < m3 ∧ 1/4 < skewSq n m2 m3 then "Right-skewed (positive skew)"
   else "Left-skewed (negative skew)",
   if kuDef ∧ |kurtVal n m2 m4| < 1/2 then "Normal tail heaviness"
   else if kuDef ∧ 1/2 < kurtVal n m2 m4 then "Heavy-tailed"
   else "Light-tailed"⟩

/-- InsightGenerator.analyze_distributions: every numeric column with at
least one non-null value. -/
def analyze_distributions (ds : Dataset) : List DistInfo :=
  (numericCols ds).filterMap (fun c =>
    let vals := nonNullVals c.cells
    if vals.length = 0 then none
    else some (distInfoOf c.name vals))

/-- The aggregate response of InsightGenerator.generate_all_insights. -/
structure Insights where
  keyFindings : List KeyFinding
  correlations : List CorrEntry
  outliers : List OutlierReport
  trends : List TrendResult
  dataQuality : QualitySummary
  distributions : List DistInfo
deriving DecidableEq, Repr

/-- InsightGenerator.generate_all_insights: pure orchestration of the five
insight computations, with the default correlation threshold 0.7. -/
def generate_all_insights (ds : Dataset) : Insights :=
  ⟨generate_key_findings ds,
   find_strong_correlations ds (7/10),
   detect_all_outliers ds,
   analyze_all_trends ds,
   get_data_quality_summary ds,
   analyze_distributions ds⟩

/-!
State-passing forms of the operations.  The source classes hold the
dataframe in self.data; a method call reads that state and returns a
result.  The translation threads the dataframe state explicitly: each
operation maps the incoming state to its result paired with the outgoing
state.  No statement of any of these methods assigns to self.data or
mutates the frame in place, so the outgoing state is the incoming one.
-/

/-- State-passing DataProcessor.get_column_info. -/
def get_column_infoS (ds : Dataset) : List ColumnProfile × Dataset :=
  (get_column_info ds, ds)

/-- State-passing DataProcessor.detect_outliers. -/
def detect_outliersS (ds : Dataset) (column method : String) :
    Except String (List ℕ) × Dataset :=
  (detect_outliers ds column method, ds)

/-- State-passing InsightGenerator.find_strong_correlations. -/
def find_strong_correlationsS (ds : Dataset) (thr : ℚ) :
    List CorrEntry × Dataset :=
  (find_strong_correlations ds thr, ds)

/-- State-passing DataProcessor.analyze_trends. -/
def analyze_trendsS (ds : Dataset) (column : String) :
    Except String (Option TrendResult) × Dataset :=
  (analyze_trends ds column, ds)

/-- State-passing DataProcessor.get_data_quality_summary. -/
def get_data_quality_summaryS (ds : Dataset) : QualitySummary × Dataset :=
  (get_data_quality_summary ds, ds)

/-- State-passing InsightGenerator.generate_all_insights. -/
def generate_all_insightsS (ds : Dataset) : Insights × Dataset :=
  (generate_all_insights ds, ds)

/-- Shorthand for a numeric cell. -/
def cq (q : ℚ) : Cell := some (Sum.inl q)

/-- The dataset of the worked example of the spec: one numeric column
A = [1, 2, 3, 4, 100]. -/
def exA : Dataset := ⟨5, [⟨"A", true, [cq 1, cq 2, cq 3, cq 4, cq 100]⟩]⟩

/-- A dataset whose two identical numeric columns are named against
lexicographic order. -/
def dsBA : Dataset := ⟨2, [⟨"b", true, [cq 1, cq 2]⟩, ⟨"a", true, [cq 1, cq 2]⟩]⟩

/-- The empty dataset: no rows, no columns. -/
def dsEmpty : Dataset := ⟨0, []⟩

/-- A dataset with one constant numeric column. -/
def dsConst : Dataset := ⟨3, [⟨"x", true, [cq 5, cq 5, cq 5]⟩]⟩

/-- A dataset with one textual column. -/
def dsCat : Dataset := ⟨2, [⟨"t", false, [some (Sum.inr "u"), some (Sum.inr "v")]⟩]⟩

/-- A dataset with one numeric column holding [1, 2, 4]. -/
def dsTrend : Dataset := ⟨3, [⟨"y", true, [cq 1, cq 2, cq 4]⟩]⟩

/-- A dataset with duplicate rows and a missing cell: one numeric column
holding [1, 1, 1, NaN] over four rows. -/
def dsQual : Dataset := ⟨4, [⟨"n", true, [cq 1, cq 1, cq 1, none]⟩]⟩

/-- Reading a sorted list at increasing positions is monotone. -/
theorem sorted_getD_mono (s : List ℚ) (hs : List.Sorted (· ≤ ·) s)
    (i j : ℕ) (hij : i ≤ j) (hj : j < s.length) :
    s.getD i 0 ≤ s.getD j 0 := by
  have hi : i < s.length := lt_of_le_of_lt hij hj
  rw [List.getD_eq_getElem?_getD, List.getElem?_eq_getElem hi, Option.getD_some,
      List.getD_eq_getElem?_getD, List.getElem?_eq_getElem hj, Option.getD_some]
  rcases Nat.eq_or_lt_of_le hij with h | h
  · subst h; exact le_refl _
  · have := hs.rel_get_of_lt (show (⟨i, hi⟩ : Fin s.length) < ⟨j, hj⟩ from h)
    simpa using this

/-- The interpolation index sits just below the fractional position. -/
theorem qIdx_cast_bounds (n : ℕ) (q : ℚ) (h : 0 ≤ q * ((n : ℚ) - 1)) :
    ((qIdx n q : ℕ) : ℚ) ≤ q * ((n : ℚ) - 1) ∧
    q * ((n : ℚ) - 1) < ((qIdx n q : ℕ) : ℚ) + 1 := by
  have hfl : (0 : ℤ) ≤ ⌊q * ((n : ℚ) - 1)⌋ := Int.floor_nonneg.2 h
  have hcast : ((qIdx n q : ℕ) : ℚ) = ((⌊q * ((n : ℚ) - 1)⌋ : ℤ) : ℚ) := by
    rw [qIdx]
    exact_mod_cast congrArg (fun z : ℤ => (z : ℚ)) (Int.toNat_of_nonneg hfl)
  constructor
  · rw [hcast]; exact Int.floor_le _
  · rw [hcast]
    have h2 := Int.lt_floor_add_one (q * ((n : ℚ) - 1))
    push_cast at h2 ⊢
    linarith

/-- The interpolation index of a level in [0, 1] stays in the list. -/
theorem qIdx_le_pred (n : ℕ) (q : ℚ) (hn : 1 ≤ n) (_h0 : 0 ≤ q) (h1 : q ≤ 1) :
    qIdx n q ≤ n - 1 := by
  have hm : (0 : ℚ) ≤ (n : ℚ) - 1 := by
    have : (1 : ℚ) ≤ (n : ℚ) := by exact_mod_cast hn
    linarith
  have hle : q * ((n : ℚ) - 1) ≤ (n : ℚ) - 1 := by
    calc q * ((n : ℚ) - 1) ≤ 1 * ((n : ℚ) - 1) := mul_le_mul_of_nonneg_right h1 hm
    _ = (n : ℚ) - 1 := one_mul _
  have hfloor : ⌊q * ((n : ℚ) - 1)⌋ ≤ (n : ℤ) - 1 := by
    have hm2 : ((n : ℚ) - 1) = (((n : ℤ) - 1 : ℤ) : ℚ) := by push_cast; ring
    calc ⌊q * ((n : ℚ) - 1)⌋ ≤ ⌊(n : ℚ) - 1⌋ := Int.floor_mono hle
    _ = (n : ℤ) - 1 := by rw [hm2, Int.floor_intCast]
  rw [qIdx]
  omega

/-- The interpolation index is monotone in the level. -/
theorem qIdx_mono (n : ℕ) (q1 q2 : ℚ) (hm : (0 : ℚ) ≤ (n : ℚ) - 1)
    (h12 : q1 ≤ q2) : qIdx n q1 ≤ qIdx n q2 := by
  rw [qIdx, qIdx]
  exact Int.toNat_le_toNat (Int.floor_mono (mul_le_mul_of_nonneg_right h12 hm))

/-- The linear-interpolated quantile of a sorted nonempty list is monotone
in the level. -/
theorem quantile_le_quantile (s : List ℚ) (hs : List.Sorted (· ≤ ·) s)
    (hn : 1 ≤ s.length) (q1 q2 : ℚ) (h0 : 0 ≤ q1) (h12 : q1 ≤ q2)
    (h21 : q2 ≤ 1) : quantile s q1 ≤ quantile s q2 := by
  have hnq : (1 : ℚ) ≤ (s.length : ℚ) := by exact_mod_cast hn
  have hm : (0 : ℚ) ≤ (s.length : ℚ) - 1 := by linarith
  have hpred : s.length - 1 < s.length := by omega
  have hh1 : 0 ≤ q1 * ((s.length : ℚ) - 1) := mul_nonneg h0 hm
  have hh2 : 0 ≤ q2 * ((s.length : ℚ) - 1) := mul_nonneg (le_trans h0 h12) hm
  obtain ⟨hA1, hB1⟩ := qIdx_cast_bounds s.length q1 hh1
  obtain ⟨hA2, hB2⟩ := qIdx_cast_bounds s.length q2 hh2
  have hlo1 : qIdx s.length q1 ≤ s.length - 1 := qIdx_le_pred _ _ hn h0 (le_trans h12 h21)
  have hlo2 : qIdx s.length q2 ≤ s.length - 1 :=
    qIdx_le_pred _ _ hn (le_trans h0 h12) h21
  have hlo12 : qIdx s.length q1 ≤ qIdx s.length q2 := qIdx_mono _ _ _ hm h12
  rw [quantile, quantile]
  rcases Nat.eq_or_lt_of_le hlo12 with heq | hlt
  · rw [heq]
    have hhiA : s.getD (qIdx s.length q2) 0 ≤
        s.getD (min (qIdx s.length q2 + 1) (s.length - 1)) 0 := by
      apply sorted_getD_mono s hs _ _ (le_min (Nat.le_succ _) hlo2)
      exact lt_of_le_of_lt (min_le_right _ _) hpred
    have hstep : 0 ≤ (q2 * ((s.length : ℚ) - 1) - q1 * ((s.length : ℚ) - 1)) *
        (s.getD (min (qIdx s.length q2 + 1) (s.length - 1)) 0 -
          s.getD (qIdx s.length q2) 0) :=
      mul_nonneg (by nlinarith) (by linarith)
    rw [heq] at hA1 hB1
    nlinarith [hstep]
  · have hub1 : quantile s q1 ≤
        s.getD (min (qIdx s.length q1 + 1) (s.length - 1)) 0 := by
      rw [quantile]
      have hAB : s.getD (qIdx s.length q1) 0 ≤
          s.getD (min (qIdx s.length q1 + 1) (s.length - 1)) 0 := by
        apply sorted_getD_mono s hs _ _ (le_min (Nat.le_succ _) hlo1)
        exact lt_of_le_of_lt (min_le_right _ _) hpred
      nlinarith [hA1, hB1, hAB]
    have hlb2 : s.getD (qIdx s.length q2) 0 ≤ quantile s q2 := by
      rw [quantile]
      have hAB : s.getD (qIdx s.length q2) 0 ≤
          s.getD (min (qIdx s.length q2 + 1) (s.length - 1)) 0 := by
        apply sorted_getD_mono s hs _ _ (le_min (Nat.le_succ _) hlo2)
        exact lt_of_le_of_lt (min_le_right _ _) hpred
      nlinarith [hA2, hB2, hAB]
    have hmid : s.getD (min (qIdx s.length q1 + 1) (s.length - 1)) 0 ≤
        s.getD (qIdx s.length q2) 0 := by
      apply sorted_getD_mono s hs _ _ (le_trans (min_le_left _ _) hlt)
      exact lt_of_le_of_lt hlo2 hpred
    have hchain := le_trans hub1 (le_trans hmid hlb2)
    rw [quantile, quantile] at hchain
    exact hchain

/-- Membership in the indexed non-null entries reads the cell at the
index. -/
theorem dropnaIdx_mem (cells : List Cell) (i : ℕ) (v : ℚ) :
    (i, v) ∈ dropnaIdx cells ↔ cellVal (cells.getD i (none : Cell)) = some v := by
  simp only [dropnaIdx, List.mem_filterMap]
  constructor
  · rintro ⟨⟨a, b⟩, hp, hg⟩
    rw [Option.map_eq_some'] at hg
    obtain ⟨w, hw, heq⟩ := hg
    cases heq
    rw [List.mk_mem_enum_iff_getElem?] at hp
    rw [List.getD_eq_getElem?_getD, hp, Option.getD_some]
    exact hw
  · intro h
    cases hi : cells[i]? with
    | none =>
      rw [List.getD_eq_getElem?_getD, hi] at h
      simp [cellVal] at h
    | some x =>
      refine ⟨(i, x), List.mk_mem_enum_iff_getElem?.2 hi, ?_⟩
      rw [List.getD_eq_getElem?_getD, hi, Option.getD_some] at h
      rw [h]
      rfl

/-- The values of the indexed non-null entries are the non-null values. -/
theorem dropna_map_snd (cells : List Cell) :
    (dropnaIdx cells).map Prod.snd = nonNullVals cells := by
  have aux : ∀ (k : ℕ) (cs : List Cell),
      ((List.enumFrom k cs).filterMap
        (fun p => (cellVal p.2).map (fun v => (p.1, v)))).map Prod.snd =
      cs.filterMap cellVal := by
    intro k cs
    induction cs generalizing k with
    | nil => simp
    | cons a as ih =>
      simp only [List.enumFrom, List.filterMap_cons]
      cases h : cellVal a with
      | none => simpa using ih (k + 1)
      | some v => simpa using ih (k + 1)
  exact aux 0 cells

/-- A list of pairwise equal values has zero sum of squared deviations. -/
theorem zSsq_eq_zero (cd : List (ℕ × ℚ))
    (h : ∀ x ∈ cd.map Prod.snd, ∀ y ∈ cd.map Prod.snd, x = y) :
    zSsq cd = 0 := by
  rcases h0 : cd.map Prod.snd with _ | ⟨v, rest⟩
  · simp [zSsq, h0]
  · have hmem : v ∈ cd.map Prod.snd := by rw [h0]; exact List.mem_cons_self _ _
    have hv : ∀ x ∈ cd.map Prod.snd, x = v := fun x hx => h x hx v hmem
    have hlen : (cd.map Prod.snd).length = cd.length := List.length_map _ _
    have hn0 : (cd.length : ℚ) ≠ 0 := by
      have : cd.length ≠ 0 := by
        intro hc
        rw [List.length_eq_zero] at hc
        rw [hc] at h0
        simp at h0
      exact_mod_cast this
    have hsum : (cd.map Prod.snd).sum = (cd.length : ℚ) * v := by
      rw [List.sum_eq_card_nsmul _ v hv, hlen, nsmul_eq_mul]
    have hmean : zMean cd = v := by
      rw [zMean, hsum, mul_comm, mul_div_assoc, div_self hn0, mul_one]
    rw [zSsq]
    apply List.sum_eq_zero
    intro y hy
    rcases List.mem_map.1 hy with ⟨x, hx, rfl⟩
    rw [hv x hx, hmean]
    ring

/-- C1: on a present numeric column whose non-null values are all equal,
z-score outlier detection returns the empty set of row positions; the zero
standard deviation produces NaN z-scores, every comparison with which is
false, so nothing is flagged and nothing is raised. -/
theorem c1_zscore_zero_variance (ds : Dataset) (column : String) (c : Column)
    (hc : findCol ds column = some c) (hnum : c.isNumeric = true)
    (hconst : ∀ x ∈ nonNullVals c.cells, ∀ y ∈ nonNullVals c.cells, x = y) :
    detect_outliers ds column "zscore" = Except.ok [] := by
  unfold detect_outliers
  rw [hc]
  have hsnd := dropna_map_snd c.cells
  have hz : zSsq (dropnaIdx c.cells) = 0 := by
    apply zSsq_eq_zero
    rw [hsnd]
    exact hconst
  have hfalse : ∀ p ∈ dropnaIdx c.cells, ¬ (zPred (dropnaIdx c.cells) p = true) := by
    intro p _
    simp [zPred, hz]
  simp only [detectOutliersVals, hnum]
  simp only [Bool.true_eq_false, if_false, if_neg (by decide : ¬ ("zscore" = "iqr"))]
  rw [List.filter_eq_nil_iff.2 hfalse]
  rfl

/-- Witness for C1 at a constant column. -/
theorem c1_witness : detect_outliers dsConst "x" "zscore" = Except.ok [] :=
  c1_zscore_zero_variance dsConst "x" ⟨"x", true, [cq 5, cq 5, cq 5]⟩ rfl rfl
    (by decide)

/-- C3: on a present numeric column, the iqr method flags exactly the row
positions whose value lies strictly outside the fences computed from the
linear-interpolated quartiles of the non-null values; when at least one
non-null value exists the fences satisfy lower <= Q1 <= Q3 <= upper; the
flagged count equals a recount of the values outside the fences; and on
the worked example A = [1, 2, 3, 4, 100] exactly the value 100 at row
position 4 is flagged. -/
theorem c3_iqr_flags_bounds_count (ds : Dataset) (column : String) (c : Column)
    (hc : findCol ds column = some c) (hnum : c.isNumeric = true) :
    detect_outliers ds column "iqr" = Except.ok (detectOutliersVals c "iqr") ∧
    (∀ i : ℕ, i ∈ detectOutliersVals c "iqr" ↔
      ∃ v, cellVal (c.cells.getD i (none : Cell)) = some v ∧
        (v < iqrLower (sortQ (nonNullVals c.cells)) ∨
         iqrUpper (sortQ (nonNullVals c.cells)) < v)) ∧
    (1 ≤ (nonNullVals c.cells).length →
      iqrLower (sortQ (nonNullVals c.cells)) ≤
          quantile (sortQ (nonNullVals c.cells)) (1/4) ∧
      quantile (sortQ (nonNullVals c.cells)) (1/4) ≤
          quantile (sortQ (nonNullVals c.cells)) (3/4) ∧
      quantile (sortQ (nonNullVals c.cells)) (3/4) ≤
          iqrUpper (sortQ (nonNullVals c.cells))) ∧
    (detectOutliersVals c "iqr").length =
      (nonNullVals c.cells).countP
        (fun v => decide (v < iqrLower (sortQ (nonNullVals c.cells)) ∨
                          iqrUpper (sortQ (nonNullVals c.cells)) < v)) ∧
    detect_outliers exA "A" "iqr" = Except.ok [4] := by
  have hval : detectOutliersVals c "iqr" =
      ((dropnaIdx c.cells).filter
        (iqrPred (sortQ (nonNullVals c.cells)))).map Prod.fst := by
    simp only [detectOutliersVals, hnum, Bool.true_eq_false, if_false, if_pos]
    rw [dropna_map_snd]
  refine ⟨?_, ?_, ?_, ?_, ?_⟩
  · unfold detect_outliers
    rw [hc]
  · intro i
    rw [hval]
    simp only [List.mem_map, List.mem_filter]
    constructor
    · rintro ⟨⟨a, w⟩, ⟨hmem, hpred⟩, rfl⟩
      refine ⟨w, (dropnaIdx_mem c.cells a w).1 hmem, ?_⟩
      simpa [iqrPred] using hpred
    · rintro ⟨v, hcell, hout⟩
      refine ⟨(i, v), ⟨(dropnaIdx_mem c.cells i v).2 hcell, ?_⟩, rfl⟩
      simpa [iqrPred] using hout
  · intro hne
    have hsorted : List.Sorted (· ≤ ·) (sortQ (nonNullVals c.cells)) :=
      List.sorted_insertionSort _ _
    have hlen : (sortQ (nonNullVals c.cells)).length =
        (nonNullVals c.cells).length :=
      (List.perm_insertionSort _ _).length_eq
    have hlen1 : 1 ≤ (sortQ (nonNullVals c.cells)).length := by omega
    have h13 : quantile (sortQ (nonNullVals c.cells)) (1/4) ≤
        quantile (sortQ (nonNullVals c.cells)) (3/4) :=
      quantile_le_quantile _ hsorted hlen1 (1/4) (3/4) (by norm_num) (by norm_num)
        (by norm_num)
    refine ⟨?_, h13, ?_⟩
    · rw [iqrLower]; linarith
    · rw [iqrUpper]; linarith
  · rw [hval, List.length_map, ← List.countP_eq_length_filter]
    rw [← dropna_map_snd, List.countP_map]
    apply List.countP_congr
    intro p _
    simp [iqrPred, Function.comp]
  · have h1 : iqrLower [(1:ℚ),2,3,4,100] = -1 := by
      norm_num [iqrLower, quantile, qIdx, (show Int.toNat 3 = 3 from rfl),
        (show Int.toNat 1 = 1 from rfl), List.getElem_cons_succ,
        List.getElem_cons_zero]
    have h2 : iqrUpper [(1:ℚ),2,3,4,100] = 7 := by
      norm_num [iqrUpper, quantile, qIdx, (show Int.toNat 3 = 3 from rfl),
        (show Int.toNat 1 = 1 from rfl), List.getElem_cons_succ,
        List.getElem_cons_zero]
    have hs : sortQ [(1:ℚ),2,3,4,100] = [1,2,3,4,100] := by
      norm_num [sortQ, List.insertionSort, List.orderedInsert]
    have h4 : dropnaIdx [cq 1, cq 2, cq 3, cq 4, cq 100] =
        [(0,1),(1,2),(2,3),(3,4),(4,100)] := rfl
    have hfind : findCol exA "A" =
        some ⟨"A", true, [cq 1, cq 2, cq 3, cq 4, cq 100]⟩ := rfl
    unfold detect_outliers
    rw [hfind]
    simp only [detectOutliersVals, Bool.true_eq_false, if_false, if_pos]
    rw [h4]
    norm_num [hs, h1, h2, List.filter_cons, iqrPred]

/-- Witness for C3 at the worked example column. -/
theorem c3_witness :
    detect_outliers exA "A" "iqr" =
      Except.ok (detectOutliersVals ⟨"A", true, [cq 1, cq 2, cq 3, cq 4, cq 100]⟩ "iqr") ∧
    quantile (sortQ (nonNullVals [cq 1, cq 2, cq 3, cq 4, cq 100])) (1/4) ≤
      quantile (sortQ (nonNullVals [cq 1, cq 2, cq 3, cq 4, cq 100])) (3/4) :=
  ⟨(c3_iqr_flags_bounds_count exA "A"
      ⟨"A", true, [cq 1, cq 2, cq 3, cq 4, cq 100]⟩ rfl rfl).1,
   ((c3_iqr_flags_bounds_count exA "A"
      ⟨"A", true, [cq 1, cq 2, cq 3, cq 4, cq 100]⟩ rfl rfl).2.2.1 (by decide)).2.1⟩

/-- Closed form of the index sum. -/
theorem sumX_closed (n : ℕ) : sumX n = (n : ℚ) * ((n : ℚ) - 1) / 2 := by
  induction n with
  | zero => simp [sumX]
  | succ k ih =>
    have : sumX (k + 1) = sumX k + (k : ℚ) := by
      simp [sumX, Finset.sum_range_succ]
    rw [this, ih]
    push_cast
    ring

/-- Closed form of the squared index sum. -/
theorem sumXX_closed (n : ℕ) :
    sumXX n = (n : ℚ) * ((n : ℚ) - 1) * (2 * (n : ℚ) - 1) / 6 := by
  induction n with
  | zero => simp [sumXX]
  | succ k ih =>
    have : sumXX (k + 1) = sumXX k + (k : ℚ) ^ 2 := by
      simp [sumXX, Finset.sum_range_succ]
    rw [this, ih]
    push_cast
    ring

/-- The least-squares denominator over positions 0 .. n-1 is positive for
at least two points. -/
theorem olsDenom_pos (n : ℕ) (hn : 2 ≤ n) :
    0 < (n : ℚ) * sumXX n - sumX n ^ 2 := by
  have hx : (2 : ℚ) ≤ (n : ℚ) := by exact_mod_cast hn
  rw [sumX_closed, sumXX_closed]
  have heq : (n : ℚ) * ((n : ℚ) * ((n : ℚ) - 1) * (2 * (n : ℚ) - 1) / 6) -
      ((n : ℚ) * ((n : ℚ) - 1) / 2) ^ 2 =
      (n : ℚ) ^ 2 * ((n : ℚ) - 1) * ((n : ℚ) + 1) / 12 := by ring
  rw [heq]
  apply div_pos
  · apply mul_pos
    apply mul_pos
    · positivity
    · linarith
    · linarith
  · norm_num

/-- First normal equation: the residuals of the fitted line sum to
zero. -/
theorem sum_residuals_zero (ys : List ℚ) (hn : 1 ≤ ys.length) :
    ∑ i ∈ Finset.range ys.length,
      (ys.getD i 0 - (olsSlope ys * (i : ℚ) + olsIntercept ys)) = 0 := by
  have hn0 : ((ys.length : ℕ) : ℚ) ≠ 0 := by
    have : ys.length ≠ 0 := by omega
    exact_mod_cast this
  have hexp : ∑ i ∈ Finset.range ys.length,
      (ys.getD i 0 - (olsSlope ys * (i : ℚ) + olsIntercept ys)) =
      sumY ys - olsSlope ys * sumX ys.length -
        (ys.length : ℚ) * olsIntercept ys := by
    rw [Finset.sum_sub_distrib, Finset.sum_add_distrib, ← Finset.mul_sum]
    rw [Finset.sum_const, Finset.card_range, nsmul_eq_mul]
    rw [sumY, sumX]
    ring
  rw [hexp, olsIntercept]
  field_simp

/-- Second normal equation: the position-weighted residuals of the fitted
line sum to zero. -/
theorem sum_x_residuals_zero (ys : List ℚ) (hn : 2 ≤ ys.length) :
    ∑ i ∈ Finset.range ys.length,
      (i : ℚ) * (ys.getD i 0 - (olsSlope ys * (i : ℚ) + olsIntercept ys)) = 0 := by
  have hn0 : ((ys.length : ℕ) : ℚ) ≠ 0 := by
    have : 0 < ys.length := lt_of_lt_of_le Nat.zero_lt_two hn
    exact_mod_cast this.ne'
  have hD : (ys.length : ℚ) * sumXX ys.length - sumX ys.length ^ 2 ≠ 0 :=
    (olsDenom_pos ys.length hn).ne'
  have hexp : ∑ i ∈ Finset.range ys.length,
      (i : ℚ) * (ys.getD i 0 - (olsSlope ys * (i : ℚ) + olsIntercept ys)) =
      sumXY ys - olsSlope ys * sumXX ys.length -
        olsIntercept ys * sumX ys.length := by
    have hpt : ∀ i ∈ Finset.range ys.length,
        (i : ℚ) * (ys.getD i 0 - (olsSlope ys * (i : ℚ) + olsIntercept ys)) =
        (i : ℚ) * ys.getD i 0 - olsSlope ys * (i : ℚ) ^ 2 -
          olsIntercept ys * (i : ℚ) := by
      intro i _
      ring
    rw [Finset.sum_congr rfl hpt]
    rw [Finset.sum_sub_distrib, Finset.sum_sub_distrib, ← Finset.mul_sum,
      ← Finset.mul_sum]
    rw [sumXY, sumXX, sumX]
  rw [hexp, olsIntercept, olsSlope]
  field_simp
  ring

/-- The computed slope and intercept minimize the sum of squared errors:
the fit is ordinary least squares. -/
theorem sse_min (ys : List ℚ) (h3 : 3 ≤ ys.length) (a b : ℚ) :
    sse ys (olsSlope ys) (olsIntercept ys) ≤ sse ys a b := by
  have h2 : 2 ≤ ys.length := le_trans (by norm_num) h3
  have h1 : 1 ≤ ys.length := le_trans (by norm_num) h3
  have hr := sum_residuals_zero ys h1
  have hrx := sum_x_residuals_zero ys h2
  have hpt : ∀ i ∈ Finset.range ys.length,
      (ys.getD i 0 - (a * (i : ℚ) + b)) ^ 2 =
      (ys.getD i 0 - (olsSlope ys * (i : ℚ) + olsIntercept ys)) ^ 2 +
        ((olsSlope ys - a) * (i : ℚ) + (olsIntercept ys - b)) ^ 2 +
        (2 * (olsSlope ys - a)) *
          ((i : ℚ) * (ys.getD i 0 - (olsSlope ys * (i : ℚ) + olsIntercept ys))) +
        (2 * (olsIntercept ys - b)) *
          (ys.getD i 0 - (olsSlope ys * (i : ℚ) + olsIntercept ys)) := by
    intro i _
    ring
  have hkey : sse ys a b = sse ys (olsSlope ys) (olsIntercept ys) +
      ∑ i ∈ Finset.range ys.length,
        ((olsSlope ys - a) * (i : ℚ) + (olsIntercept ys - b)) ^ 2 := by
    rw [sse, Finset.sum_congr rfl hpt]
    rw [Finset.sum_add_distrib, Finset.sum_add_distrib, Finset.sum_add_distrib,
      ← Finset.mul_sum, ← Finset.mul_sum, hr, hrx, sse]
    ring
  have hnn : 0 ≤ ∑ i ∈ Finset.range ys.length,
      ((olsSlope ys - a) * (i : ℚ) + (olsIntercept ys - b)) ^ 2 :=
    Finset.sum_nonneg (fun i _ => sq_nonneg _)
  linarith

/-- C4: on a present numeric column the trend estimator returns none for
fewer than three non-null values; otherwise it returns the least-squares
slope over positions 0 .. n-1 (the returned slope together with the
matching intercept minimizes the sum of squared errors) with the
classification increasing for positive, decreasing for negative and no
trend for exactly zero slope; and the aggregator keeps a computed trend
exactly when the absolute slope exceeds 0.001. -/
theorem c4_trend_estimator (ds : Dataset) (column : String) (c : Column)
    (hc : findCol ds column = some c) (hnum : c.isNumeric = true) :
    ((nonNullVals c.cells).length < 3 → analyze_trends ds column = Except.ok none) ∧
    (3 ≤ (nonNullVals c.cells).length →
      analyze_trends ds column = Except.ok (some ⟨column,
        olsSlope (nonNullVals c.cells),
        trendDesc (olsSlope (nonNullVals c.cells))⟩) ∧
      ∀ a b : ℚ, sse (nonNullVals c.cells) (olsSlope (nonNullVals c.cells))
          (olsIntercept (nonNullVals c.cells)) ≤ sse (nonNullVals c.cells) a b) ∧
    (∀ s : ℚ, (0 < s → trendDesc s = "Increasing trend") ∧
      (s < 0 → trendDesc s = "Decreasing trend") ∧
      (s = 0 → trendDesc s = "No clear trend")) ∧
    (∀ t : TrendResult, t ∈ analyze_all_trends ds ↔
      ∃ c2 ∈ numericCols ds, analyzeTrendsCol c2 c2.name = some t ∧
        1/1000 < |t.slope|) := by
  refine ⟨?_, ?_, ?_, ?_⟩
  · intro hlt
    unfold analyze_trends
    rw [hc]
    simp [analyzeTrendsCol, hnum, hlt]
  · intro h3
    constructor
    · unfold analyze_trends
      rw [hc]
      simp [analyzeTrendsCol, hnum, Nat.not_lt.2 h3]
    · exact sse_min (nonNullVals c.cells) h3
  · intro s
    refine ⟨?_, ?_, ?_⟩
    · intro h
      rw [trendDesc, if_pos h]
    · intro h
      rw [trendDesc, if_neg (by linarith), if_pos h]
    · intro h
      subst h
      simp [trendDesc]
  · intro t
    unfold analyze_all_trends
    rw [List.mem_filterMap]
    constructor
    · rintro ⟨c2, hc2, hm⟩
      cases h : analyzeTrendsCol c2 c2.name with
      | none => rw [h] at hm; simp at hm
      | some t2 =>
        rw [h] at hm
        simp only at hm
        by_cases hs : 1/1000 < |t2.slope|
        · rw [if_pos hs] at hm
          obtain rfl := Option.some.inj hm
          exact ⟨c2, hc2, h, hs⟩
        · rw [if_neg hs] at hm
          exact absurd hm (by simp)
    · rintro ⟨c2, hc2, ht, hslope⟩
      refine ⟨c2, hc2, ?_⟩
      rw [ht]
      simp only [if_pos hslope]

/-- Witness for C4 at the column [1, 2, 4]. -/
theorem c4_witness :
    analyze_trends dsTrend "y" = Except.ok (some ⟨"y",
      olsSlope (nonNullVals [cq 1, cq 2, cq 4]),
      trendDesc (olsSlope (nonNullVals [cq 1, cq 2, cq 4]))⟩) ∧
    sse (nonNullVals [cq 1, cq 2, cq 4]) (olsSlope (nonNullVals [cq 1, cq 2, cq 4]))
      (olsIntercept (nonNullVals [cq 1, cq 2, cq 4])) ≤
      sse (nonNullVals [cq 1, cq 2, cq 4]) 0 0 :=
  ⟨((c4_trend_estimator dsTrend "y" ⟨"y", true, [cq 1, cq 2, cq 4]⟩ rfl rfl).2.1
      (by decide)).1,
   ((c4_trend_estimator dsTrend "y" ⟨"y", true, [cq 1, cq 2, cq 4]⟩ rfl rfl).2.1
      (by decide)).2 0 0⟩

/-- With equal column lengths, the missing cells are at most the table
cells. -/
theorem missing_le_total (ds : Dataset) (hwf : ds.WF) :
    missingCount ds ≤ ds.nrows * ds.cols.length := by
  have h1 : missingCount ds ≤ (ds.cols.map (fun c => c.cells.length)).sum := by
    rw [missingCount]
    apply List.sum_le_sum
    intro c _
    exact List.countP_le_length _
  have h2 : (ds.cols.map (fun c => c.cells.length)).sum =
      ds.nrows * ds.cols.length := by
    have hmap : ds.cols.map (fun c => c.cells.length) =
        ds.cols.map (fun _ => ds.nrows) := by
      apply List.map_congr_left
      intro c hc
      exact hwf c hc
    rw [hmap, List.map_const', List.sum_replicate, smul_eq_mul, Nat.mul_comm]
  omega

/-- C6, counterexample: on the empty dataset the quality summary divides
zero cells by zero cells; the completeness the source returns is NaN, not
a value in [0, 100]. -/
theorem c6_counterexample :
    (get_data_quality_summary dsEmpty).completeness = none := rfl

/-- C6 as amended: for every well-formed dataset with at least one row and
one column the completeness is a defined value in [0, 100], the duplicate
count is nonnegative, and a dataset with no missing cell has completeness
exactly 100. -/
theorem c6_amended (ds : Dataset) (hwf : ds.WF) (hr : 0 < ds.nrows)
    (hc : 0 < ds.cols.length) :
    0 ≤ (get_data_quality_summary ds).duplicates ∧
    ∃ q, (get_data_quality_summary ds).completeness = some q ∧
      0 ≤ q ∧ q ≤ 100 ∧ (missingCount ds = 0 → q = 100) := by
  refine ⟨Nat.zero_le _, ?_⟩
  have htot : ds.nrows * ds.cols.length ≠ 0 := by positivity
  have htotq : (0 : ℚ) < ((ds.nrows * ds.cols.length : ℕ) : ℚ) := by
    exact_mod_cast Nat.pos_of_ne_zero htot
  have hmiss : ((missingCount ds : ℕ) : ℚ) ≤ ((ds.nrows * ds.cols.length : ℕ) : ℚ) := by
    exact_mod_cast missing_le_total ds hwf
  have hmiss0 : (0 : ℚ) ≤ ((missingCount ds : ℕ) : ℚ) := by positivity
  refine ⟨(((ds.nrows * ds.cols.length : ℕ) : ℚ) - (missingCount ds : ℚ)) /
      ((ds.nrows * ds.cols.length : ℕ) : ℚ) * 100, ?_, ?_, ?_, ?_⟩
  · simp only [get_data_quality_summary, completeness, htot, if_false]
  · apply mul_nonneg _ (by norm_num)
    apply div_nonneg _ (le_of_lt htotq)
    linarith
  · have hle1 : (((ds.nrows * ds.cols.length : ℕ) : ℚ) - (missingCount ds : ℚ)) /
        ((ds.nrows * ds.cols.length : ℕ) : ℚ) ≤ 1 := by
      rw [div_le_one htotq]
      linarith
    nlinarith
  · intro hz
    rw [hz]
    push_cast
    field_simp

/-- Witness for C6 as amended at a fully-populated two-column dataset. -/
theorem c6_witness :
    (get_data_quality_summary dsBA).completeness = some 100 := by
  obtain ⟨-, q, h1, -, -, h4⟩ := c6_amended dsBA
    (by unfold Dataset.WF dsBA; decide) (by decide) (by decide)
  rw [h1, h4 (by decide)]

/-- Membership in the missing-values advice block. -/
theorem mem_complRecs (o : Option ℚ) (x : String) :
    x ∈ complRecs o ↔
      x = "Consider handling missing values" ∧ ∃ r, o = some r ∧ r < 95 := by
  cases o with
  | none => simp [complRecs]
  | some q =>
    by_cases hlt : q < 95
    · simp [complRecs, hlt]
    · simp [complRecs, hlt]

/-- Membership in the duplicate-removal advice block. -/
theorem mem_dupRecs (d : ℕ) (x : String) :
    x ∈ dupRecs d ↔
      x = "Remove " ++ toString d ++ " duplicate rows" ∧ 0 < d := by
  by_cases hd : 0 < d
  · simp [dupRecs, hd]
  · simp [dupRecs, hd]

/-- A string is recommended exactly when one of the three rules emits
it. -/
theorem mem_qualityRecommendations (ds : Dataset) (x : String) :
    x ∈ qualityRecommendations ds ↔
      (x = "Consider handling missing values" ∧
        ∃ r, completeness ds = some r ∧ r < 95) ∨
      (x = "Remove " ++ toString (duplicatedCount ds) ++ " duplicate rows" ∧
        0 < duplicatedCount ds) ∨
      (∃ c ∈ (numericCols ds).filter (outlierHeavy ds),
        x = "Investigate outliers in " ++ c.name) := by
  unfold qualityRecommendations
  simp only [List.mem_append, mem_complRecs, mem_dupRecs, List.mem_map]
  constructor
  · rintro ((h | h) | h)
    · exact Or.inl h
    · exact Or.inr (Or.inl h)
    · rcases h with ⟨c, hc, hx⟩
      exact Or.inr (Or.inr ⟨c, hc, hx.symm⟩)
  · rintro (h | h | ⟨c, hc, h⟩)
    · exact Or.inl (Or.inl h)
    · exact Or.inl (Or.inr h)
    · exact Or.inr ⟨c, hc, h.symm⟩

/-- The outlier advice starts with the letter I. -/
theorem inv_head (nm : String) :
    ("Investigate outliers in " ++ nm).data.head? = some 'I' := by
  rw [String.data_append]
  rfl

/-- The duplicate advice starts with the letter R. -/
theorem rem_head (d : ℕ) :
    ("Remove " ++ toString d ++ " duplicate rows").data.head? = some 'R' := by
  rw [String.data_append, String.data_append]
  rfl

/-- The outlier advice never equals the missing-values advice. -/
theorem inv_ne_mv (nm : String) :
    "Investigate outliers in " ++ nm ≠ "Consider handling missing values" := by
  intro h
  have h2 := congrArg (fun s : String => s.data.head?) h
  simp only at h2
  rw [inv_head] at h2
  exact absurd h2 (by decide)

/-- The duplicate advice never equals the missing-values advice. -/
theorem rem_ne_mv (d : ℕ) :
    "Remove " ++ toString d ++ " duplicate rows" ≠
      "Consider handling missing values" := by
  intro h
  have h2 := congrArg (fun s : String => s.data.head?) h
  simp only at h2
  rw [rem_head] at h2
  exact absurd h2 (by decide)

/-- The outlier advice never equals the duplicate advice. -/
theorem inv_ne_rem (nm : String) (d : ℕ) :
    "Investigate outliers in " ++ nm ≠
      "Remove " ++ toString d ++ " duplicate rows" := by
  intro h
  have h2 := congrArg (fun s : String => s.data.head?) h
  simp only at h2
  rw [inv_head, rem_head] at h2
  exact absurd h2 (by decide)

/-- Appending to a fixed prefix is injective. -/
theorem str_append_left_cancel (p a b : String) (h : p ++ a = p ++ b) : a = b := by
  apply String.ext
  have h2 := congrArg String.data h
  rw [String.data_append, String.data_append] at h2
  exact List.append_cancel_left h2

/-- C7: with distinct column names, the quality summary emits the
missing-values advice exactly when the (defined) completeness is below 95,
the duplicate-removal advice exactly when the duplicate count is positive,
and the outlier advice for a numeric column exactly when its iqr outlier
count exceeds five percent of the row count. -/
theorem c7_recommendation_rules (ds : Dataset) (hN : (ds.cols.map Column.name).Nodup) :
    ("Consider handling missing values" ∈
        (get_data_quality_summary ds).recommendations ↔
      ∃ q, completeness ds = some q ∧ q < 95) ∧
    (("Remove " ++ toString (duplicatedCount ds) ++ " duplicate rows") ∈
        (get_data_quality_summary ds).recommendations ↔
      0 < duplicatedCount ds) ∧
    (∀ c ∈ ds.cols, c.isNumeric = true →
      (("Investigate outliers in " ++ c.name) ∈
          (get_data_quality_summary ds).recommendations ↔
        (ds.nrows : ℚ) * (5 / 100) < ((detectOutliersVals c "iqr").length : ℚ))) := by
  have hinj := List.inj_on_of_nodup_map hN
  refine ⟨?_, ?_, ?_⟩
  · rw [show (get_data_quality_summary ds).recommendations =
        qualityRecommendations ds from rfl, mem_qualityRecommendations]
    constructor
    · rintro (⟨-, hq⟩ | ⟨h, -⟩ | ⟨c, -, h⟩)
      · exact hq
      · exact absurd h.symm (rem_ne_mv _)
      · exact absurd h.symm (inv_ne_mv _)
    · intro hq
      exact Or.inl ⟨rfl, hq⟩
  · rw [show (get_data_quality_summary ds).recommendations =
        qualityRecommendations ds from rfl, mem_qualityRecommendations]
    constructor
    · rintro (⟨h, -⟩ | ⟨-, hd⟩ | ⟨c, -, h⟩)
      · exact absurd h (rem_ne_mv _)
      · exact hd
      · exact absurd h.symm (inv_ne_rem _ _)
    · intro hd
      exact Or.inr (Or.inl ⟨rfl, hd⟩)
  · intro c hcmem hcnum
    rw [show (get_data_quality_summary ds).recommendations =
        qualityRecommendations ds from rfl, mem_qualityRecommendations]
    constructor
    · rintro (⟨h, -⟩ | ⟨h, -⟩ | ⟨c2, hc2mem, h⟩)
      · exact absurd h (inv_ne_mv _)
      · exact absurd h (inv_ne_rem _ _)
      · have hname : c.name = c2.name :=
          str_append_left_cancel "Investigate outliers in " _ _ h
        have hc2cols : c2 ∈ ds.cols :=
          (List.mem_filter.1 (List.mem_filter.1 hc2mem).1).1
        have hsame : c2 = c := hinj hc2cols hcmem hname.symm
        have hheavy := (List.mem_filter.1 hc2mem).2
        rw [hsame] at hheavy
        simpa [outlierHeavy] using hheavy
    · intro hcond
      refine Or.inr (Or.inr ⟨c, ?_, rfl⟩)
      apply List.mem_filter.2
      refine ⟨List.mem_filter.2 ⟨hcmem, hcnum⟩, ?_⟩
      simpa [outlierHeavy] using hcond

/-- Witness for C7 at a dataset with one missing cell and two duplicate
rows. -/
theorem c7_witness :
    "Consider handling missing values" ∈
      (get_data_quality_summary dsQual).recommendations ∧
    ("Remove " ++ toString (duplicatedCount dsQual) ++ " duplicate rows") ∈
      (get_data_quality_summary dsQual).recommendations :=
  ⟨(c7_recommendation_rules dsQual (by decide)).1.mpr
     ⟨75, by norm_num [completeness, dsQual,
       (show missingCount ⟨4, [⟨"n", true, [cq 1, cq 1, cq 1, none]⟩]⟩ = 1 from rfl)], by norm_num⟩,
   (c7_recommendation_rules dsQual (by decide)).2.1.mpr (by decide)⟩

/-- The traversal visits exactly the strict upper-triangle index pairs. -/
theorem mem_indexPairs (k : ℕ) (p : ℕ × ℕ) :
    p ∈ indexPairs k ↔ p.1 < p.2 ∧ p.2 < k := by
  rcases p with ⟨a, b⟩
  simp only [indexPairs, List.mem_flatMap, List.mem_map, List.mem_filter,
    List.mem_range, decide_eq_true_eq]
  constructor
  · rintro ⟨i, hik, j, ⟨hjk, hij⟩, heq⟩
    cases heq
    exact ⟨hij, hjk⟩
  · rintro ⟨hab, hbk⟩
    exact ⟨a, lt_trans hab hbk, b, ⟨hbk, hab⟩, rfl⟩

/-- No index pair is visited twice. -/
theorem nodup_indexPairs (k : ℕ) : (indexPairs k).Nodup := by
  rw [indexPairs, List.nodup_flatMap]
  constructor
  · intro i _
    apply List.Nodup.map
    · intro a b hab
      exact (Prod.mk.injEq i a i b).mp hab |>.2
    · exact List.Nodup.filter _ (List.nodup_range k)
  · apply List.Pairwise.imp_of_mem ?_ (List.pairwise_lt_range k)
    intro i j _ _ hij
    intro x hx1 hx2
    rcases List.mem_map.1 hx1 with ⟨a, -, rfl⟩
    rcases List.mem_map.1 hx2 with ⟨b, -, heq⟩
    have : i = j := ((Prod.mk.injEq ..).mp heq).1.symm
    omega

/-- What an emitted entry looks like: the names at its index pair, a
positive denominator (the comparison with the NaN of a degenerate pair is
false), absolute correlation at least the threshold, and the sign-derived
label. -/
theorem strongEntry_some (nc : List Column) (thr : ℚ) (p : ℕ × ℕ) (e : CorrEntry)
    (h : strongEntry nc thr p = some e) :
    e.var1 = (nc.getD p.1 dfltCol).name ∧ e.var2 = (nc.getD p.2 dfltCol).name ∧
    0 < e.corrDenSq ∧ thr ^ 2 * e.corrDenSq ≤ e.corrNum ^ 2 ∧
    e.strength = (if 0 < e.corrNum then "Strong positive" else "Strong negative") := by
  simp only [strongEntry] at h
  set pe := pearsonRep (nc.getD p.1 dfltCol).cells (nc.getD p.2 dfltCol).cells with hpe
  by_cases hcond : 0 < pe.2 ∧ thr ^ 2 * pe.2 ≤ pe.1 ^ 2
  · rw [if_pos hcond] at h
    obtain rfl := Option.some.inj h
    exact ⟨rfl, rfl, hcond.1, hcond.2, rfl⟩
  · rw [if_neg hcond] at h
    exact absurd h (by simp)

/-- Every reported correlation comes from one strict upper-triangle index
pair of the numeric columns. -/
theorem find_strong_mem (ds : Dataset) (thr : ℚ) (e : CorrEntry)
    (h : e ∈ find_strong_correlations ds thr) :
    ∃ i j : ℕ, i < j ∧ j < (numericCols ds).length ∧
      strongEntry (numericCols ds) thr (i, j) = some e := by
  rw [find_strong_correlations] at h
  rcases hm : get_correlation_matrix ds with _ | nc
  · rw [hm] at h
    exact absurd h (List.not_mem_nil e)
  · rw [hm] at h
    have hnc : nc = numericCols ds := by
      rw [get_correlation_matrix] at hm
      split_ifs at hm
      exact (Option.some.inj hm).symm
    subst hnc
    have h2 : e ∈ ((indexPairs (numericCols ds).length).filterMap
        (strongEntry (numericCols ds) thr)).insertionSort corrGE :=
      List.take_subset 5 _ h
    have h3 : e ∈ (indexPairs (numericCols ds).length).filterMap
        (strongEntry (numericCols ds) thr) :=
      (List.Perm.mem_iff (List.perm_insertionSort corrGE _)).1 h2
    rcases List.mem_filterMap.1 h3 with ⟨⟨i, j⟩, hmem, hsome⟩
    rcases (mem_indexPairs _ _).1 hmem with ⟨hij, hjk⟩
    exact ⟨i, j, hij, hjk, hsome⟩

/-- With distinct column names, positions are recoverable from names. -/
theorem names_inj (nc : List Column) (hN : (nc.map Column.name).Nodup)
    (i j : ℕ) (hi : i < nc.length) (hj : j < nc.length)
    (h : (nc.getD i dfltCol).name = (nc.getD j dfltCol).name) : i = j := by
  rw [List.getD_eq_getElem?_getD, List.getElem?_eq_getElem hi, Option.getD_some,
      List.getD_eq_getElem?_getD, List.getElem?_eq_getElem hj, Option.getD_some] at h
  have hi2 : i < (nc.map Column.name).length := by simpa using hi
  have hj2 : j < (nc.map Column.name).length := by simpa using hj
  exact (@List.Nodup.getElem_inj_iff _ _ hN i hi2 j hj2).mp
    (by simp only [List.getElem_map]; exact h)

/-- With distinct column names the report never contains the same
unordered pair twice, in either orientation. -/
theorem find_strong_pairwise (ds : Dataset) (thr : ℚ)
    (hN : ((numericCols ds).map Column.name).Nodup) :
    (find_strong_correlations ds thr).Pairwise (fun e1 e2 =>
      ¬((e1.var1 = e2.var1 ∧ e1.var2 = e2.var2) ∨
        (e1.var1 = e2.var2 ∧ e1.var2 = e2.var1))) := by
  rw [find_strong_correlations]
  rcases hm : get_correlation_matrix ds with _ | nc
  · exact List.Pairwise.nil
  · have hnc : nc = numericCols ds := by
      rw [get_correlation_matrix] at hm
      split_ifs at hm
      exact (Option.some.inj hm).symm
    subst hnc
    have hraw : ((indexPairs (numericCols ds).length).filterMap
        (strongEntry (numericCols ds) thr)).Pairwise (fun e1 e2 =>
          ¬((e1.var1 = e2.var1 ∧ e1.var2 = e2.var2) ∨
            (e1.var1 = e2.var2 ∧ e1.var2 = e2.var1))) := by
      rw [List.pairwise_filterMap]
      apply List.Pairwise.imp_of_mem ?_ ((nodup_indexPairs (numericCols ds).length))
      intro p q hp hq hne e1 he1 e2 he2
      have hs1 : strongEntry (numericCols ds) thr p = some e1 := he1
      have hs2 : strongEntry (numericCols ds) thr q = some e2 := he2
      obtain ⟨hv11, hv12, -, -, -⟩ := strongEntry_some _ _ _ _ hs1
      obtain ⟨hv21, hv22, -, -, -⟩ := strongEntry_some _ _ _ _ hs2
      obtain ⟨hp12, hpk⟩ := (mem_indexPairs _ _).1 hp
      obtain ⟨hq12, hqk⟩ := (mem_indexPairs _ _).1 hq
      rintro (⟨ha, hb⟩ | ⟨ha, hb⟩)
      · rw [hv11, hv21] at ha
        rw [hv12, hv22] at hb
        have h1 := names_inj _ hN _ _ (lt_trans hp12 hpk) (lt_trans hq12 hqk) ha
        have h2 := names_inj _ hN _ _ hpk hqk hb
        exact hne (Prod.ext h1 h2)
      · rw [hv11, hv22] at ha
        rw [hv12, hv21] at hb
        have h1 := names_inj _ hN _ _ (lt_trans hp12 hpk) hqk ha
        have h2 := names_inj _ hN _ _ hpk (lt_trans hq12 hqk) hb
        omega
    have hsym : Symmetric (fun e1 e2 : CorrEntry =>
        ¬((e1.var1 = e2.var1 ∧ e1.var2 = e2.var2) ∨
          (e1.var1 = e2.var2 ∧ e1.var2 = e2.var1))) := by
      intro a b hab hcon
      apply hab
      rcases hcon with ⟨h1, h2⟩ | ⟨h1, h2⟩
      · exact Or.inl ⟨h1.symm, h2.symm⟩
      · exact Or.inr ⟨h2.symm, h1.symm⟩
    have hsorted := (List.Perm.pairwise_iff (fun h => hsym h)
      (List.perm_insertionSort corrGE _)).2 hraw
    exact List.Pairwise.sublist (List.take_sublist 5 _) hsorted

/-- The report is sorted by descending absolute correlation. -/
theorem find_strong_sorted (ds : Dataset) (thr : ℚ) :
    List.Sorted corrGE (find_strong_correlations ds thr) := by
  rw [find_strong_correlations]
  rcases get_correlation_matrix ds with _ | nc
  · exact List.Pairwise.nil
  · exact List.Pairwise.sublist (List.take_sublist 5 _)
      (List.sorted_insertionSort corrGE _)

/-- The report is truncated to at most five entries. -/
theorem find_strong_len (ds : Dataset) (thr : ℚ) :
    (find_strong_correlations ds thr).length ≤ 5 := by
  rw [find_strong_correlations]
  rcases get_correlation_matrix ds with _ | nc
  · simp
  · exact le_trans (List.length_take_le 5 _) (le_refl 5)

/-- Fewer than two numeric columns yield an empty report. -/
theorem find_strong_empty (ds : Dataset) (thr : ℚ)
    (h : (numericCols ds).length < 2) :
    find_strong_correlations ds thr = [] := by
  rw [find_strong_correlations, get_correlation_matrix]
  simp [if_pos h]

/-- C2: with distinct numeric-column names and the default threshold 0.7,
the correlation scanner returns the empty list for fewer than two numeric
columns, reports at most five entries sorted by descending absolute
correlation, each entry an unordered pair of distinct numeric columns
reported at most once whose absolute correlation meets the threshold (in
the exact square representation), labelled Strong positive exactly when
the coefficient is positive. -/
theorem c2_correlation_scanner (ds : Dataset)
    (hN : ((numericCols ds).map Column.name).Nodup) :
    ((numericCols ds).length < 2 → find_strong_correlations ds (7/10) = []) ∧
    (find_strong_correlations ds (7/10)).length ≤ 5 ∧
    List.Sorted corrGE (find_strong_correlations ds (7/10)) ∧
    (∀ e ∈ find_strong_correlations ds (7/10),
      0 < e.corrDenSq ∧ (7/10) ^ 2 * e.corrDenSq ≤ e.corrNum ^ 2 ∧
      e.strength = (if 0 < e.corrNum then "Strong positive" else "Strong negative") ∧
      ∃ i j : ℕ, i < j ∧ j < (numericCols ds).length ∧
        e.var1 = ((numericCols ds).getD i dfltCol).name ∧
        e.var2 = ((numericCols ds).getD j dfltCol).name ∧ e.var1 ≠ e.var2) ∧
    (find_strong_correlations ds (7/10)).Pairwise (fun e1 e2 =>
      ¬((e1.var1 = e2.var1 ∧ e1.var2 = e2.var2) ∨
        (e1.var1 = e2.var2 ∧ e1.var2 = e2.var1))) := by
  refine ⟨find_strong_empty ds _, find_strong_len ds _, find_strong_sorted ds _,
    ?_, find_strong_pairwise ds _ hN⟩
  intro e he
  obtain ⟨i, j, hij, hjk, hsome⟩ := find_strong_mem ds _ e he
  obtain ⟨hv1, hv2, hden, hthr, hstr⟩ := strongEntry_some _ _ _ _ hsome
  refine ⟨hden, hthr, hstr, i, j, hij, hjk, hv1, hv2, ?_⟩
  intro hname
  rw [hv1, hv2] at hname
  have := names_inj _ hN _ _ (lt_trans hij hjk) hjk hname
  omega

/-- Concrete evaluation of the scanner on two identical numeric columns
named against lexicographic order. -/
theorem find_strong_dsBA :
    find_strong_correlations dsBA (7/10) =
      [⟨"b", "a", 1/2, 1/4, "Strong positive"⟩] := by
  have hpe : pearsonRep [cq 1, cq 2] [cq 1, cq 2] = (1/2, 1/4) := by
    have hpairs : ([cq 1, cq 2].zip [cq 1, cq 2]).filterMap
        (fun p => (cellVal p.1).bind (fun a => (cellVal p.2).map (fun b => (a, b)))) =
        [((1 : ℚ), (1 : ℚ)), (2, 2)] := rfl
    rw [pearsonRep]
    rw [hpairs]
    norm_num
  have hnc : numericCols dsBA =
      [⟨"b", true, [cq 1, cq 2]⟩, ⟨"a", true, [cq 1, cq 2]⟩] := rfl
  have hse : strongEntry (numericCols dsBA) (7/10) (0, 1) =
      some ⟨"b", "a", 1/2, 1/4, "Strong positive"⟩ := by
    simp only [strongEntry, hnc]
    norm_num [hpe]
  show (((indexPairs (numericCols dsBA).length).filterMap
      (strongEntry (numericCols dsBA) (7/10))).insertionSort corrGE).take 5 = _
  have hip : indexPairs (numericCols dsBA).length = [(0, 1)] := rfl
  rw [hip]
  simp [List.filterMap_cons, hse, List.insertionSort]

/-- C5, counterexample: on a dataset whose numeric columns are named b, a
in that order, the emitted pair has var1 = b and var2 = a, so var1 < var2
lexicographically fails; pairs follow dataset column order, not name
order. -/
theorem c5_counterexample :
    ¬ ∀ e ∈ find_strong_correlations dsBA (7/10), e.var1 < e.var2 := by
  intro h
  have hlt := h ⟨"b", "a", 1/2, 1/4, "Strong positive"⟩
    (by rw [find_strong_dsBA]; exact List.mem_singleton.2 rfl)
  have h2 : ("b" : String) < "a" := hlt
  rw [String.lt_iff_toList_lt] at h2
  exact absurd h2 (by decide)

/-- C5 as amended: every emitted pair consists of two distinct numeric
columns with var1 strictly before var2 in the dataset column order of the
numeric columns, and the list never contains a self-pair nor both
orientations of one pair. -/
theorem c5_amended (ds : Dataset) (thr : ℚ)
    (hN : ((numericCols ds).map Column.name).Nodup) :
    (∀ e ∈ find_strong_correlations ds thr,
      (∃ i j : ℕ, i < j ∧ j < (numericCols ds).length ∧
        e.var1 = ((numericCols ds).getD i dfltCol).name ∧
        e.var2 = ((numericCols ds).getD j dfltCol).name) ∧ e.var1 ≠ e.var2) ∧
    (find_strong_correlations ds thr).Pairwise (fun e1 e2 =>
      ¬((e1.var1 = e2.var1 ∧ e1.var2 = e2.var2) ∨
        (e1.var1 = e2.var2 ∧ e1.var2 = e2.var1))) := by
  refine ⟨?_, find_strong_pairwise ds thr hN⟩
  intro e he
  obtain ⟨i, j, hij, hjk, hsome⟩ := find_strong_mem ds _ e he
  obtain ⟨hv1, hv2, -, -, -⟩ := strongEntry_some _ _ _ _ hsome
  refine ⟨⟨i, j, hij, hjk, hv1, hv2⟩, ?_⟩
  intro hname
  rw [hv1, hv2] at hname
  have := names_inj _ hN _ _ (lt_trans hij hjk) hjk hname
  omega

/-- Witness for C5 as amended: the emitted pair on the concrete dataset
has distinct variables. -/
theorem c5_witness :
    (⟨"b", "a", 1/2, 1/4, "Strong positive"⟩ : CorrEntry).var1 ≠
      (⟨"b", "a", 1/2, 1/4, "Strong positive"⟩ : CorrEntry).var2 :=
  ((c5_amended dsBA (7/10) (by decide)).1 _
    (by rw [find_strong_dsBA]; exact List.mem_singleton.2 rfl)).2

/-- Witness for C2 at concrete datasets. -/
theorem c2_witness :
    find_strong_correlations dsEmpty (7/10) = [] ∧
    (find_strong_correlations dsBA (7/10)).length ≤ 5 :=
  ⟨(c2_correlation_scanner dsEmpty (by decide)).1 (by decide),
   (c2_correlation_scanner dsBA (by decide)).2.1⟩

/-- C9: every operation of the insight-computation layer is a pure
function of the dataset snapshot: in the state-passing translation each
operation returns the state unchanged, and a second call on the state
coming out of the first returns the same result. -/
theorem c9_operations_pure (ds : Dataset) (column method : String) (thr : ℚ) :
    ((get_column_infoS ds).2 = ds ∧
      (get_column_infoS (get_column_infoS ds).2).1 = (get_column_infoS ds).1) ∧
    ((detect_outliersS ds column method).2 = ds ∧
      (detect_outliersS (detect_outliersS ds column method).2 column method).1 =
        (detect_outliersS ds column method).1) ∧
    ((find_strong_correlationsS ds thr).2 = ds ∧
      (find_strong_correlationsS (find_strong_correlationsS ds thr).2 thr).1 =
        (find_strong_correlationsS ds thr).1) ∧
    ((analyze_trendsS ds column).2 = ds ∧
      (analyze_trendsS (analyze_trendsS ds column).2 column).1 =
        (analyze_trendsS ds column).1) ∧
    ((get_data_quality_summaryS ds).2 = ds ∧
      (get_data_quality_summaryS (get_data_quality_summaryS ds).2).1 =
        (get_data_quality_summaryS ds).1) ∧
    ((generate_all_insightsS ds).2 = ds ∧
      (generate_all_insightsS (generate_all_insightsS ds).2).1 =
        (generate_all_insightsS ds).1) :=
  ⟨⟨rfl, rfl⟩, ⟨rfl, rfl⟩, ⟨rfl, rfl⟩, ⟨rfl, rfl⟩, ⟨rfl, rfl⟩, ⟨rfl, rfl⟩⟩

/-- C10: on a present numeric column, every method string other than iqr
takes the z-score branch of detect_outliers, and no method string produces
an error. -/
theorem c10_nonIqr_method_is_zscore (ds : Dataset) (column method : String)
    (c : Column) (hc : findCol ds column = some c) (hnum : c.isNumeric = true)
    (hm : method ≠ "iqr") :
    detect_outliers ds column method = detect_outliers ds column "zscore" ∧
    ∃ l, detect_outliers ds column method = Except.ok l := by
  unfold detect_outliers
  rw [hc]
  refine ⟨?_, ⟨detectOutliersVals c method, rfl⟩⟩
  simp only [detectOutliersVals, hm, if_false, hnum]
  simp

/-- Witness for C10 at a concrete dataset and a misspelled method. -/
theorem c10_witness :
    detect_outliers dsConst "x" "zscor" = detect_outliers dsConst "x" "zscore" ∧
    ∃ l, detect_outliers dsConst "x" "zscor" = Except.ok l :=
  c10_nonIqr_method_is_zscore dsConst "x" "zscor" ⟨"x", true, [cq 5, cq 5, cq 5]⟩
    rfl rfl (by decide)

/-- C8, counterexample: requesting outliers for a column label that is
absent does not return an empty result; it raises a KeyError, because
self.data[column] is evaluated before the dtype test. -/
theorem c8_counterexample :
    detect_outliers dsEmpty "x" "iqr" = Except.error "KeyError" := rfl

/-- C8 as amended: a present non-numeric column yields an empty result
without error; an absent column raises a KeyError. -/
theorem c8_amended (ds : Dataset) (column method : String) :
    (findCol ds column = none →
      detect_outliers ds column method = Except.error "KeyError") ∧
    (∀ c, findCol ds column = some c → c.isNumeric = false →
      detect_outliers ds column method = Except.ok []) := by
  constructor
  · intro h
    unfold detect_outliers
    rw [h]
  · intro c hc hnum
    unfold detect_outliers
    rw [hc]
    simp [detectOutliersVals, hnum]

/-- Witness for C8 as amended: a textual column gives an empty result, a
missing label gives the KeyError. -/
theorem c8_witness :
    detect_outliers dsCat "t" "iqr" = Except.ok [] ∧
    detect_outliers dsEmpty "x" "iqr" = Except.error "KeyError" :=
  ⟨(c8_amended dsCat "t" "iqr").2 ⟨"t", false, [some (Sum.inr "u"), some (Sum.inr "v")]⟩
      rfl rfl,
   (c8_amended dsEmpty "x" "iqr").1 rfl⟩

end MumzDash
